import Mathlib

/-!
Verification of the convergence driver of the PAV sizing tool.

The development shallowly embeds `Iterator.converge` (src/iterator.py) and the
mass / centre-of-gravity aggregation of the vehicle evaluator
(src/pav_classes/pav.py).  The driver state is modelled over `ℚ`.  The wing
position variable of the inner scan is accumulated in Python float arithmetic
in the source (`position += position_step`), and the set of sampled positions
depends on binary64 rounding, so that accumulation is modelled exactly:
every float is the rational it denotes, and float addition is exact rational
addition followed by IEEE 754 binary64 round-to-nearest, ties-to-even.

Rational arithmetic inside executable definitions is written with `mkRat` and
integer operations (the library addition and multiplication on `ℚ` are
irreducible and cannot be evaluated by `decide`); the lemmas `qadd_eq`,
`qsub_eq`, `qabs_eq` and `qmin_eq` identify these operations with the
ordinary ones on `ℚ`.
-/

/-- Exact rational addition, written so that the kernel can evaluate it. -/
def qadd (a b : ℚ) : ℚ := mkRat (a.num * b.den + b.num * a.den) (a.den * b.den)

/-- Exact rational subtraction, written so that the kernel can evaluate it. -/
def qsub (a b : ℚ) : ℚ := mkRat (a.num * b.den - b.num * a.den) (a.den * b.den)

/-- Absolute value on `ℚ`, written so that the kernel can evaluate it. -/
def qabs (a : ℚ) : ℚ := if 0 ≤ a.num then a else mkRat (-a.num) a.den

/-- `qmin a x` models one update step of the Python builtin `min` over a list:
the running value `a` is replaced by `x` only when `x` is strictly smaller. -/
def qmin (a x : ℚ) : ℚ := if x < a then x else a

theorem qadd_eq (a b : ℚ) : qadd a b = a + b := by
  have ha : ((a.den : ℚ)) ≠ 0 := by exact_mod_cast a.den_nz
  have hb : ((b.den : ℚ)) ≠ 0 := by exact_mod_cast b.den_nz
  rw [qadd, Rat.mkRat_eq_div]
  push_cast
  conv_rhs => rw [← Rat.num_div_den a, ← Rat.num_div_den b]
  field_simp

theorem qsub_eq (a b : ℚ) : qsub a b = a - b := by
  have ha : ((a.den : ℚ)) ≠ 0 := by exact_mod_cast a.den_nz
  have hb : ((b.den : ℚ)) ≠ 0 := by exact_mod_cast b.den_nz
  rw [qsub, Rat.mkRat_eq_div]
  push_cast
  conv_rhs => rw [← Rat.num_div_den a, ← Rat.num_div_den b]
  field_simp
  ring

theorem qabs_eq (a : ℚ) : qabs a = |a| := by
  rw [qabs]
  by_cases h : 0 ≤ a.num
  · rw [if_pos h, abs_of_nonneg (Rat.num_nonneg.mp h)]
  · rw [if_neg h]
    push_neg at h
    rw [abs_of_neg (Rat.num_neg.mp h)]
    rw [← Rat.neg_mkRat, Rat.mkRat_self]

theorem qmin_eq (a x : ℚ) : qmin a x = min a x := by
  rw [qmin]
  by_cases h : x < a
  · rw [if_pos h, min_eq_right h.le]
  · rw [if_neg h, min_eq_left (not_lt.mp h)]

/-- Binary length of a natural number, written with structural fuel so that the
kernel can evaluate it; `bitLenAux f n` is exact whenever `n < 2 ^ f`. -/
def bitLenAux : Nat → Nat → Nat
  | 0, _ => 0
  | f + 1, n => if n = 0 then 0 else bitLenAux f (n / 2) + 1

/-- Binary length, exact for every operand arising in this development
(all mantissas are far below `2 ^ 256`). -/
def bitLen (n : Nat) : Nat := bitLenAux 256 n

/-- Round the positive rational `a / b` to the nearest binary64 value
(53 significant bits, ties to even), returned as the exact rational the
resulting double denotes.  Exponents here stay far away from the overflow and
subnormal ranges, so no clamping is modelled. -/
def roundPosRat (a b : Nat) : ℚ :=
  -- normalisation exponent e with 2 ^ e ≤ a / b < 2 ^ (e + 1)
  let e0 : Int := (bitLen a : Int) - (bitLen b : Int)
  let qLtE0 : Bool := if 0 ≤ e0 then a < b * 2 ^ e0.toNat else a * 2 ^ (-e0).toNat < b
  let e : Int := if qLtE0 then e0 - 1 else e0
  -- significand of a / b scaled into the interval from 2 ^ 52 to 2 ^ 53
  let sh : Int := 52 - e
  let num : Nat := if 0 ≤ sh then a * 2 ^ sh.toNat else a
  let den : Nat := if 0 ≤ sh then b else b * 2 ^ (-sh).toNat
  let m0 : Nat := num / den
  let r : Nat := num % den
  -- round to nearest, ties to even
  let m : Nat :=
    if den < 2 * r then m0 + 1
    else if 2 * r < den then m0
    else if m0 % 2 = 0 then m0 else m0 + 1
  if 52 ≤ e then mkRat (m * 2 ^ (e - 52).toNat : Nat) 1
  else mkRat (m : Nat) (2 ^ (52 - e).toNat)

/-- The binary64 double nearest to a rational (ties to even): the semantics of
a Python float literal or arithmetic result, as an exact rational. -/
def roundF (q : ℚ) : ℚ :=
  if 0 < q.num then roundPosRat q.num.toNat q.den
  else if q.num < 0 then
    let r := roundPosRat (-q.num).toNat q.den
    mkRat (-r.num) r.den
  else 0

/-- Python float addition: exact rational addition followed by binary64
rounding. -/
def fadd (a b : ℚ) : ℚ := roundF (qadd a b)

/-- `position_start = 0.2` (src/iterator.py line 53), as the double that the
literal `0.2` denotes. -/
def position_start : ℚ := roundF (mkRat 1 5)

/-- `position_end = 0.5` (src/iterator.py line 54). -/
def position_end : ℚ := roundF (mkRat 1 2)

/-- `position_step = 0.025` (src/iterator.py line 55). -/
def position_step : ℚ := roundF (mkRat 1 40)

/-- Default `longitudinal_wing_position = 0.4` of the PAV class
(src/pav_classes/pav.py lines 232-235), used by the initial aircraft. -/
def default_wing_position : ℚ := roundF (mkRat 2 5)

/-- The literals of the source round to the expected doubles
(cross-checked against the exact values of the corresponding Python floats). -/
theorem literal_doubles :
    position_start = mkRat 3602879701896397 (2 ^ 54) ∧
    position_end = mkRat 1 2 ∧
    position_step = mkRat 3602879701896397 (2 ^ 57) ∧
    default_wing_position = mkRat 3602879701896397 (2 ^ 53) := by
  refine ⟨?_, ?_, ?_, ?_⟩ <;> decide

/-- The inner `while position <= position_end` loop of
`Iterator.converge` (src/iterator.py lines 101-136), restricted to the
positions it visits: starting from `pos` it records the current position and
advances by `position += position_step` in float arithmetic.  The `Nat`
argument is fuel; the result is `none` if the fuel is exhausted before the
loop condition fails, so a `some` result is the exact list of visited
positions. -/
def scanGo (endP step : ℚ) : Nat → ℚ → Option (List ℚ)
  | 0, pos => if pos ≤ endP then none else some []
  | n + 1, pos =>
    if pos ≤ endP then
      (scanGo endP step n (fadd pos step)).map (List.cons pos)
    else some []

/-- The list of wing positions sampled by one inner scan of
`Iterator.converge`: the float accumulation `0.2, 0.2 + 0.025, ...` while the
accumulated value is `≤ 0.5`. -/
def scanPositions : List ℚ :=
  (scanGo position_end position_step 64 position_start).getD []

/-- The inner scan terminates well within the allotted fuel and visits exactly
the twelve doubles below; in particular `position_end = 0.5` is never visited,
because the accumulated float overshoots to `0.5000000000000002` directly
after the sample near `0.475`.  The twelve values agree with the exact values
of the floats produced by the Python loop. -/
theorem scanGo_eq :
    scanGo position_end position_step 64 position_start =
      some [mkRat 3602879701896397 (2 ^ 54),
            mkRat 8106479329266893 (2 ^ 55),
            mkRat 1 4,
            mkRat 2476979795053773 (2 ^ 53),
            mkRat 1351079888211149 (2 ^ 52),
            mkRat 2927339757790823 (2 ^ 53),
            mkRat 788129934789837 (2 ^ 51),
            mkRat 3377699720527873 (2 ^ 53),
            mkRat 1801439850948199 (2 ^ 52),
            mkRat 3828059683264923 (2 ^ 53),
            mkRat 506654958079181 (2 ^ 50),
            mkRat 4278419646001973 (2 ^ 53)] := by
  decide

theorem scanPositions_eq :
    scanPositions =
      [mkRat 3602879701896397 (2 ^ 54),
       mkRat 8106479329266893 (2 ^ 55),
       mkRat 1 4,
       mkRat 2476979795053773 (2 ^ 53),
       mkRat 1351079888211149 (2 ^ 52),
       mkRat 2927339757790823 (2 ^ 53),
       mkRat 788129934789837 (2 ^ 51),
       mkRat 3377699720527873 (2 ^ 53),
       mkRat 1801439850948199 (2 ^ 52),
       mkRat 3828059683264923 (2 ^ 53),
       mkRat 506654958079181 (2 ^ 50),
       mkRat 4278419646001973 (2 ^ 53)] := by
  rw [scanPositions, scanGo_eq]
  rfl

/-- A three-component vector over `ℚ`, modelling the Python lists
`[x, y, z]` used for centre-of-gravity values. -/
structure Vec3 where
  x : ℚ
  y : ℚ
  z : ℚ
deriving DecidableEq

/-- The four outputs of one evaluator call that `Iterator.converge` reads from
the `PAV` object it constructs (src/iterator.py lines 119-124). -/
structure Sample where
  horizontal_tail_area : ℚ
  vertical_tail_area : ℚ
  expected_maximum_take_off_weight : ℚ
  centre_of_gravity_result : Vec3
deriving DecidableEq

/-- The vehicle evaluator interface: the `PAV` constructed at
src/iterator.py lines 104-117 as a function of the three varying inputs
`longitudinal_wing_position`, `maximum_take_off_weight` (assumed mass) and
`centre_of_gravity` (assumed c.g.); the fixed mission inputs are part of the
function. -/
def Evaluator : Type := ℚ → ℚ → Vec3 → Sample

/-- The combined empennage area `h_t_area + v_t_area` recorded for one sample
(src/iterator.py line 130). -/
def sampleArea (s : Sample) : ℚ :=
  qadd s.horizontal_tail_area s.vertical_tail_area

theorem sampleArea_eq (s : Sample) :
    sampleArea s = s.horizontal_tail_area + s.vertical_tail_area :=
  qadd_eq _ _

/-- The Python builtin `min` over a list of rationals, as the fold that
updates the running minimum only on a strictly smaller element.  The source
only applies it to the nonempty per-scan area list; the value on `[]` is
arbitrary. -/
def listMin : List ℚ → ℚ
  | [] => 0
  | x :: xs => xs.foldl qmin x

/-- One inner scan of `Iterator.converge` (src/iterator.py lines 101-136):
one evaluator call per sampled wing position, at the current assumed mass
`original_mass` and assumed c.g. `original_cg`. -/
def innerScan (E : Evaluator) (original_mass : ℚ) (original_cg : Vec3) :
    List Sample :=
  scanPositions.map (fun position => E position original_mass original_cg)

/-- The selection step of `Iterator.converge` (src/iterator.py lines
138-151): `area = min(area_list)`, `index = area_list.index(area)`, and the
winning `(position, mass, cg)` triple is read off at that index. -/
def selectSample (samples : List Sample) : ℚ × ℚ × Vec3 :=
  let position_list := scanPositions
  let area_list := samples.map sampleArea
  let mass_list := samples.map Sample.expected_maximum_take_off_weight
  let cg_list := samples.map Sample.centre_of_gravity_result
  let area := listMin area_list
  let index := List.indexOf area area_list
  (position_list.getD index 0, mass_list.getD index 0,
    cg_list.getD index ⟨0, 0, 0⟩)

/-- The result of `Iterator.converge` together with an execution trace of the
loop.  The Python attribute returns the list
`[resulting_position, resulting_mass, resulting_cg]`; the remaining fields
record the state of `original_mass` at exit, the number of outer iterations
performed, and the number of evaluator calls (PAV constructions) issued by
inner scans. -/
structure ConvergeResult where
  resulting_position : ℚ
  resulting_mass : ℚ
  resulting_cg : Vec3
  original_mass : ℚ
  outer_loop : ℕ
  inner_calls : ℕ
deriving DecidableEq

/-- The outer `while` loop of `Iterator.converge` (src/iterator.py lines
71-154).  The loop runs `while abs(original_mass - resulting_mass) >
allowable_mass_difference and outer_loop < 3`; the `fuel` argument is
`3 - outer_loop`, so the guard `outer_loop < 3` is exactly `fuel > 0`.  Each
iteration sets the assumed values to the previous resulting values, runs one
inner scan, and replaces the resulting state by the winning sample. -/
def convergeLoop (E : Evaluator) (allowable_mass_difference : ℚ) :
    ℕ → ℚ → ℚ → ℚ → Vec3 → ℕ → ℕ → ConvergeResult
  | 0, original_mass, resulting_position, resulting_mass, resulting_cg,
      outer_loop, calls =>
    ⟨resulting_position, resulting_mass, resulting_cg, original_mass,
      outer_loop, calls⟩
  | fuel + 1, original_mass, resulting_position, resulting_mass, resulting_cg,
      outer_loop, calls =>
    if allowable_mass_difference < qabs (qsub original_mass resulting_mass) then
      let samples := innerScan E resulting_mass resulting_cg
      let sel := selectSample samples
      convergeLoop E allowable_mass_difference fuel resulting_mass
        sel.1 sel.2.1 sel.2.2 (outer_loop + 1) (calls + samples.length)
    else
      ⟨resulting_position, resulting_mass, resulting_cg, original_mass,
        outer_loop, calls⟩

/-- What `Iterator.converge` reads from `initial_aircraft`
(src/iterator.py lines 60-64): the closed-form guessed mass
`maximum_take_off_weight`, the recomputed mass
`expected_maximum_take_off_weight` and the recomputed c.g.
`centre_of_gravity_result`.  Its `longitudinal_wing_position` is not listed
because `initial_aircraft` is built without that input, so it always equals
the PAV default `default_wing_position`. -/
structure InitialAircraft where
  maximum_take_off_weight : ℚ
  expected_maximum_take_off_weight : ℚ
  centre_of_gravity_result : Vec3

/-- `Iterator.converge` (src/iterator.py lines 45-157): seed the state from
the initial aircraft and run at most 3 outer iterations. -/
def converge (initial : InitialAircraft) (E : Evaluator)
    (allowable_mass_difference : ℚ) : ConvergeResult :=
  convergeLoop E allowable_mass_difference 3
    initial.maximum_take_off_weight
    default_wing_position
    initial.expected_maximum_take_off_weight
    initial.centre_of_gravity_result
    0 0

/-- Total number of PAV constructions (evaluator calls) issued by one run of
the `Iterator`: one for `initial_aircraft` (src/iterator.py lines 190-202,
always built), the inner-scan calls of `converge`, and one for
`new_aircraft` (lines 204-222), which is suppressed unless `iterate` is
true.  When `iterate` is false the convergence loop is never demanded,
so only the initial construction happens. -/
def totalEvaluatorCalls (iterate : Bool) (initial : InitialAircraft)
    (E : Evaluator) (allowable_mass_difference : ℚ) : ℕ :=
  1 + (if iterate then
        (converge initial E allowable_mass_difference).inner_calls + 1
      else 0)

/-- The outputs of an aircraft object that the `Iterator` attributes read:
`step_parts` (of abstract type, standing for geometry), `wing_span`,
`fuselage_length` and `battery_energy`. -/
structure AircraftView (α : Type) where
  step_parts : α
  wing_span : ℚ
  fuselage_length : ℚ
  battery_energy : ℚ

/-- The observable outputs of the `Iterator` (src/iterator.py lines
164-184): each attribute is taken from `new_aircraft` when `iterate` is
true and from `initial_aircraft` otherwise; `battery_energy` is converted
from Joule to kWh by division by `3.6e6`.  Here `initial_view` is the view
of `initial_aircraft`, and `build` models constructing `new_aircraft` from
the converged `(position, mass, cg)` triple (lines 216-220). -/
def iteratorView {α : Type} (iterate : Bool) (initial_view : AircraftView α)
    (build : ℚ → ℚ → Vec3 → AircraftView α) (initial : InitialAircraft)
    (E : Evaluator) (allowable_mass_difference : ℚ) : AircraftView α :=
  let r := converge initial E allowable_mass_difference
  let new_view := build r.resulting_position r.resulting_mass r.resulting_cg
  { step_parts := if iterate then new_view.step_parts
      else initial_view.step_parts
    wing_span := if iterate then new_view.wing_span
      else initial_view.wing_span
    fuselage_length := if iterate then new_view.fuselage_length
      else initial_view.fuselage_length
    battery_energy := (if iterate then new_view.battery_energy
      else initial_view.battery_energy) / 3600000 }

theorem foldl_qmin_le_init (xs : List ℚ) (a : ℚ) : xs.foldl qmin a ≤ a := by
  induction xs generalizing a with
  | nil => exact le_refl a
  | cons x xs ih =>
    exact le_trans (ih (qmin a x)) (by rw [qmin_eq]; exact min_le_left a x)

theorem foldl_qmin_le_mem (xs : List ℚ) (a b : ℚ) (hb : b ∈ xs) :
    xs.foldl qmin a ≤ b := by
  induction xs generalizing a with
  | nil => cases hb
  | cons x xs ih =>
    rcases List.mem_cons.mp hb with h | h
    · subst h
      exact le_trans (foldl_qmin_le_init xs (qmin a b))
        (by rw [qmin_eq]; exact min_le_right a b)
    · exact ih (qmin a x) h

theorem foldl_qmin_mem (xs : List ℚ) (a : ℚ) :
    xs.foldl qmin a = a ∨ xs.foldl qmin a ∈ xs := by
  induction xs generalizing a with
  | nil => exact Or.inl rfl
  | cons x xs ih =>
    rcases ih (qmin a x) with h | h
    · rw [List.foldl_cons, h, qmin]
      by_cases hx : x < a
      · exact Or.inr (by rw [if_pos hx]; exact List.mem_cons_self x xs)
      · exact Or.inl (by rw [if_neg hx])
    · exact Or.inr (List.mem_cons_of_mem x h)

theorem listMin_mem (l : List ℚ) (h : l ≠ []) : listMin l ∈ l := by
  cases l with
  | nil => exact absurd rfl h
  | cons x xs =>
    rw [listMin]
    rcases foldl_qmin_mem xs x with h1 | h1
    · rw [h1]; exact List.mem_cons_self x xs
    · exact List.mem_cons_of_mem x h1

theorem listMin_le (l : List ℚ) (b : ℚ) (hb : b ∈ l) : listMin l ≤ b := by
  cases l with
  | nil => cases hb
  | cons x xs =>
    rw [listMin]
    rcases List.mem_cons.mp hb with h | h
    · exact h ▸ foldl_qmin_le_init xs x
    · exact foldl_qmin_le_mem xs x b h

/-- Every position before the first occurrence of `a` (the Python
`list.index` semantics) holds a different value. -/
theorem getD_lt_indexOf_ne {α : Type} [DecidableEq α] (l : List α) (a : α)
    (j : ℕ) (hj : j < List.indexOf a l) (d : α) : l.getD j d ≠ a := by
  induction l generalizing j with
  | nil => simp [List.indexOf] at hj
  | cons x xs ih =>
    by_cases hx : x = a
    · subst hx
      rw [List.indexOf_cons_self] at hj
      cases hj
    · rw [List.indexOf_cons_ne _ hx] at hj
      cases j with
      | zero => simpa using hx
      | succ j =>
        rw [List.getD_cons_succ]
        exact ih j (Nat.lt_of_succ_lt_succ hj)

/-- Default element used when indexing sample lists; never reached at the
indices the driver uses. -/
def defaultSample : Sample := ⟨0, 0, 0, ⟨0, 0, 0⟩⟩

theorem scanPositions_ne_nil : scanPositions ≠ [] := by
  rw [scanPositions_eq]; exact List.cons_ne_nil _ _

theorem scanPositions_length : scanPositions.length = 12 := by
  rw [scanPositions_eq]; rfl

theorem innerScan_length (E : Evaluator) (m : ℚ) (c : Vec3) :
    (innerScan E m c).length = scanPositions.length :=
  List.length_map _ _

theorem innerScan_ne_nil (E : Evaluator) (m : ℚ) (c : Vec3) :
    innerScan E m c ≠ [] := by
  intro h
  have := innerScan_length E m c
  rw [h, scanPositions_length] at this
  cases this

/-- The selection step picks the first sample attaining the minimal combined
tail area, and returns its scanned position, mass and c.g. -/
theorem selectSample_spec (samples : List Sample) (hne : samples ≠ []) :
    ∃ i, i < samples.length ∧
      (∀ s ∈ samples,
        sampleArea (samples.getD i defaultSample) ≤ sampleArea s) ∧
      (∀ j, j < i →
        sampleArea (samples.getD j defaultSample) ≠
          sampleArea (samples.getD i defaultSample)) ∧
      selectSample samples =
        (scanPositions.getD i 0,
         (samples.getD i defaultSample).expected_maximum_take_off_weight,
         (samples.getD i defaultSample).centre_of_gravity_result) := by
  have harea_ne : samples.map sampleArea ≠ [] := by
    intro h
    exact hne (List.map_eq_nil_iff.mp h)
  set area_list := samples.map sampleArea with harea
  have hmem : listMin area_list ∈ area_list := listMin_mem area_list harea_ne
  set i := List.indexOf (listMin area_list) area_list with hi
  have hilt : i < area_list.length := List.indexOf_lt_length.mpr hmem
  have hlen : area_list.length = samples.length := List.length_map _ _
  have hgetD_map : ∀ j, area_list.getD j (sampleArea defaultSample) =
      sampleArea (samples.getD j defaultSample) := by
    intro j
    rw [harea, List.getD_map]
  have hgetD_i : area_list.getD i (sampleArea defaultSample) =
      listMin area_list := by
    rw [List.getD_eq_getElem _ _ hilt]
    exact List.getElem_indexOf hilt
  refine ⟨i, hlen ▸ hilt, ?_, ?_, ?_⟩
  · intro s hs
    rw [← hgetD_map, hgetD_i]
    exact listMin_le area_list (sampleArea s)
      (harea ▸ List.mem_map_of_mem sampleArea hs)
  · intro j hj
    rw [← hgetD_map, ← hgetD_map, hgetD_i]
    exact getD_lt_indexOf_ne area_list (listMin area_list) j (hi ▸ hj) _
  · show (scanPositions.getD i 0,
      (List.map Sample.expected_maximum_take_off_weight samples).getD i 0,
      (List.map Sample.centre_of_gravity_result samples).getD i
        ⟨0, 0, 0⟩) = _
    have hmass : (List.map Sample.expected_maximum_take_off_weight
        samples).getD i 0 =
        (samples.getD i defaultSample).expected_maximum_take_off_weight :=
      List.getD_map samples defaultSample Sample.expected_maximum_take_off_weight
    have hcg : (List.map Sample.centre_of_gravity_result samples).getD i
        ⟨0, 0, 0⟩ = (samples.getD i defaultSample).centre_of_gravity_result :=
      List.getD_map samples defaultSample Sample.centre_of_gravity_result
    rw [hmass, hcg]

/-- Unfolding of one outer iteration whose guard
`abs(original_mass - resulting_mass) > allowable_mass_difference` holds. -/
theorem convergeLoop_succ_of_gt (E : Evaluator) (tol : ℚ) (fuel : ℕ)
    (om rp rm : ℚ) (rc : Vec3) (it ca : ℕ) (h : tol < |om - rm|) :
    convergeLoop E tol (fuel + 1) om rp rm rc it ca =
      convergeLoop E tol fuel rm
        (selectSample (innerScan E rm rc)).1
        (selectSample (innerScan E rm rc)).2.1
        (selectSample (innerScan E rm rc)).2.2
        (it + 1) (ca + (innerScan E rm rc).length) := by
  rw [convergeLoop]
  rw [if_pos (by rw [qabs_eq, qsub_eq]; exact h)]

/-- Unfolding of one outer iteration whose guard fails: the loop exits with
the current state. -/
theorem convergeLoop_succ_of_le (E : Evaluator) (tol : ℚ) (fuel : ℕ)
    (om rp rm : ℚ) (rc : Vec3) (it ca : ℕ) (h : |om - rm| ≤ tol) :
    convergeLoop E tol (fuel + 1) om rp rm rc it ca =
      ⟨rp, rm, rc, om, it, ca⟩ := by
  rw [convergeLoop]
  rw [if_neg (by rw [qabs_eq, qsub_eq]; exact not_lt.mpr h)]

theorem convergeLoop_zero (E : Evaluator) (tol : ℚ) (om rp rm : ℚ)
    (rc : Vec3) (it ca : ℕ) :
    convergeLoop E tol 0 om rp rm rc it ca = ⟨rp, rm, rc, om, it, ca⟩ :=
  rfl

/-- The outer loop performs at most `fuel` further iterations, and at exit
either the iteration budget is exhausted or the mass criterion holds. -/
theorem convergeLoop_exit (E : Evaluator) (tol : ℚ) :
    ∀ (fuel : ℕ) (om rp rm : ℚ) (rc : Vec3) (it ca : ℕ),
      (convergeLoop E tol fuel om rp rm rc it ca).outer_loop ≤ it + fuel ∧
      ((convergeLoop E tol fuel om rp rm rc it ca).outer_loop = it + fuel ∨
        |(convergeLoop E tol fuel om rp rm rc it ca).original_mass -
          (convergeLoop E tol fuel om rp rm rc it ca).resulting_mass| ≤ tol) := by
  intro fuel
  induction fuel with
  | zero =>
    intro om rp rm rc it ca
    rw [convergeLoop_zero]
    exact ⟨Nat.le_refl _, Or.inl rfl⟩
  | succ fuel ih =>
    intro om rp rm rc it ca
    by_cases h : tol < |om - rm|
    · rw [convergeLoop_succ_of_gt E tol fuel om rp rm rc it ca h]
      have := ih rm (selectSample (innerScan E rm rc)).1
        (selectSample (innerScan E rm rc)).2.1
        (selectSample (innerScan E rm rc)).2.2
        (it + 1) (ca + (innerScan E rm rc).length)
      refine ⟨?_, ?_⟩
      · exact le_trans this.1 (by omega)
      · rcases this.2 with h1 | h1
        · exact Or.inl (by omega)
        · exact Or.inr h1
    · rw [convergeLoop_succ_of_le E tol fuel om rp rm rc it ca (not_lt.mp h)]
      refine ⟨?_, Or.inr ?_⟩
      · show it ≤ it + (fuel + 1)
        omega
      · show |om - rm| ≤ tol
        exact not_lt.mp h

/-- Each outer iteration issues exactly one evaluator call per sampled
position, so the call counter grows by at most `fuel * 12`. -/
theorem convergeLoop_calls (E : Evaluator) (tol : ℚ) :
    ∀ (fuel : ℕ) (om rp rm : ℚ) (rc : Vec3) (it ca : ℕ),
      (convergeLoop E tol fuel om rp rm rc it ca).inner_calls ≤
        ca + fuel * scanPositions.length := by
  intro fuel
  induction fuel with
  | zero =>
    intro om rp rm rc it ca
    rw [convergeLoop_zero]
    simp
  | succ fuel ih =>
    intro om rp rm rc it ca
    by_cases h : tol < |om - rm|
    · rw [convergeLoop_succ_of_gt E tol fuel om rp rm rc it ca h]
      have := ih rm (selectSample (innerScan E rm rc)).1
        (selectSample (innerScan E rm rc)).2.1
        (selectSample (innerScan E rm rc)).2.2
        (it + 1) (ca + (innerScan E rm rc).length)
      rw [innerScan_length] at this
      exact le_trans this (by ring_nf; omega)
    · rw [convergeLoop_succ_of_le E tol fuel om rp rm rc it ca (not_lt.mp h)]
      show ca ≤ ca + (fuel + 1) * scanPositions.length
      exact Nat.le_add_right _ _

/-- Any property of the wing position that holds for the current value and is
preserved by the selection step holds for the returned position. -/
theorem convergeLoop_position_invariant (E : Evaluator) (tol : ℚ)
    (P : ℚ → Prop)
    (hsel : ∀ (m : ℚ) (c : Vec3), P ((selectSample (innerScan E m c)).1)) :
    ∀ (fuel : ℕ) (om rp rm : ℚ) (rc : Vec3) (it ca : ℕ), P rp →
      P ((convergeLoop E tol fuel om rp rm rc it ca).resulting_position) := by
  intro fuel
  induction fuel with
  | zero =>
    intro om rp rm rc it ca hp
    rw [convergeLoop_zero]
    exact hp
  | succ fuel ih =>
    intro om rp rm rc it ca hp
    by_cases h : tol < |om - rm|
    · rw [convergeLoop_succ_of_gt E tol fuel om rp rm rc it ca h]
      exact ih rm _ _ _ _ _ (hsel rm rc)
    · rw [convergeLoop_succ_of_le E tol fuel om rp rm rc it ca (not_lt.mp h)]
      exact hp

/-- The position selected from any full inner scan is one of the sampled
positions. -/
theorem selectSample_mem_scan (samples : List Sample) (hne : samples ≠ [])
    (hlen : samples.length = scanPositions.length) :
    (selectSample samples).1 ∈ scanPositions := by
  obtain ⟨i, hilt, _, _, hsel⟩ := selectSample_spec samples hne
  rw [hsel]
  have hi : i < scanPositions.length := hlen ▸ hilt
  rw [List.getD_eq_getElem _ _ hi]
  exact List.getElem_mem _

/-- Every sampled position lies between `position_start` and
`position_end`. -/
theorem scanPositions_bounds :
    ∀ p ∈ scanPositions, position_start ≤ p ∧ p ≤ position_end := by
  decide

/-- With a constant combined tail area, the minimum is attained by the first
sample and the scan start position is selected. -/
theorem selectSample_const_area (samples : List Sample) (hne : samples ≠ [])
    (A : ℚ) (hA : ∀ s ∈ samples, sampleArea s = A) :
    (selectSample samples).1 = position_start := by
  cases samples with
  | nil => exact absurd rfl hne
  | cons s rest =>
    show scanPositions.getD
      (List.indexOf (listMin (List.map sampleArea (s :: rest)))
        (List.map sampleArea (s :: rest))) 0 = position_start
    have hmin : listMin (List.map sampleArea (s :: rest)) =
        sampleArea s := by
      apply le_antisymm
      · exact listMin_le _ _ (List.mem_map_of_mem sampleArea
          (List.mem_cons_self s rest))
      · have hmem := listMin_mem (List.map sampleArea (s :: rest))
          (by simp)
        obtain ⟨t, ht, hteq⟩ := List.mem_map.mp hmem
        rw [← hteq, hA t ht, hA s (List.mem_cons_self s rest)]
    rw [hmin]
    rw [List.map_cons, List.indexOf_cons_self]
    decide

namespace PAV

/-- Gravitational constant `G = 9.80665` (src/pav_classes/pav.py line 68). -/
def G : ℚ := 980665 / 100000

/-- The closed-form initial mass guess `PAV.maximum_take_off_weight`
(src/pav_classes/pav.py lines 220-230), as a function of the validated
range, velocity, passenger count and quality level. -/
def maximum_take_off_weight (rangeKm velocity n_passengers
    quality_level : ℚ) : ℚ :=
  let fr := 3 / 2 + (rangeKm - 100) * 1000 * (1 / 400) / 1000
  let fv := 3 / 2 + (velocity - 100) * (1 / 400)
  7 / 2 * fr * fv * (n_passengers * (70 + quality_level * 15)) * G

/-- The centre-of-gravity data of one entry of
`center_of_gravity_of_components` (src/pav_classes/pav.py lines 485-550):
a single point when `pav_components[component]` is not a list, and one point
per instance otherwise (wheels, skids, propellers). -/
inductive ComponentCg where
  | single (v : Vec3)
  | multi (cgs : List Vec3)

/-- One component of the vehicle: its per-component mass
(`mass_of_components[name]`, src/pav_classes/pav.py lines 552-572) and its
centre-of-gravity data. -/
structure Component where
  mass : ℚ
  cg : ComponentCg

/-- The body of the summation loop of `PAV.mass`
(src/pav_classes/pav.py lines 578-585): add the per-component mass, times
the instance count for list components. -/
def massStep (acc : ℚ) (c : Component) : ℚ :=
  match c.cg with
  | ComponentCg.single _ => acc + c.mass
  | ComponentCg.multi cgs => acc + c.mass * cgs.length

/-- `PAV.mass` (src/pav_classes/pav.py lines 574-586). -/
def mass (components : List Component) : ℚ :=
  components.foldl massStep 0

/-- The body of the accumulation loop of `PAV.centre_of_gravity_result`
(src/pav_classes/pav.py lines 596-616): add the mass-weighted coordinates of
the single point, or of every instance point. -/
def cgStep (acc : Vec3) (c : Component) : Vec3 :=
  match c.cg with
  | ComponentCg.single v =>
    ⟨acc.x + v.x * c.mass, acc.y + v.y * c.mass, acc.z + v.z * c.mass⟩
  | ComponentCg.multi cgs =>
    cgs.foldl (fun acc2 v =>
      ⟨acc2.x + v.x * c.mass, acc2.y + v.y * c.mass,
        acc2.z + v.z * c.mass⟩) acc

/-- `PAV.centre_of_gravity_result` (src/pav_classes/pav.py lines 588-619):
accumulate the mass-weighted coordinates of every instance of every
component, then divide each coordinate by the total mass. -/
def centre_of_gravity_result (components : List Component) : Vec3 :=
  let s := components.foldl cgStep (⟨0, 0, 0⟩ : Vec3)
  ⟨s.x / mass components, s.y / mass components, s.z / mass components⟩

/-- `PAV.expected_maximum_take_off_weight`
(src/pav_classes/pav.py lines 621-625): the recomputed mass times `G`. -/
def expected_maximum_take_off_weight (components : List Component) : ℚ :=
  mass components * G

/-- The flattened list of physical instances: one `(mass, cg)` pair per
single component and one per instance of a list component, each at the
per-component mass. -/
def instances (components : List Component) : List (ℚ × Vec3) :=
  components.flatMap (fun c =>
    match c.cg with
    | ComponentCg.single v => [(c.mass, v)]
    | ComponentCg.multi cgs => cgs.map (fun v => (c.mass, v)))

theorem instances_cons (c : Component) (cs : List Component) :
    instances (c :: cs) =
      (match c.cg with
        | ComponentCg.single v => [(c.mass, v)]
        | ComponentCg.multi cgs => cgs.map (fun v => (c.mass, v))) ++
      instances cs := rfl

theorem massStep_single (acc : ℚ) (c : Component) (v : Vec3)
    (h : c.cg = ComponentCg.single v) : massStep acc c = acc + c.mass := by
  rw [massStep, h]

theorem massStep_multi (acc : ℚ) (c : Component) (cgs : List Vec3)
    (h : c.cg = ComponentCg.multi cgs) :
    massStep acc c = acc + c.mass * cgs.length := by
  rw [massStep, h]

theorem cgStep_single (acc : Vec3) (c : Component) (v : Vec3)
    (h : c.cg = ComponentCg.single v) :
    cgStep acc c =
      ⟨acc.x + v.x * c.mass, acc.y + v.y * c.mass, acc.z + v.z * c.mass⟩ := by
  rw [cgStep, h]

theorem cgStep_multi (acc : Vec3) (c : Component) (cgs : List Vec3)
    (h : c.cg = ComponentCg.multi cgs) :
    cgStep acc c = cgs.foldl (fun acc2 v =>
      ⟨acc2.x + v.x * c.mass, acc2.y + v.y * c.mass,
        acc2.z + v.z * c.mass⟩) acc := by
  rw [cgStep, h]

theorem sum_map_pair_fst (m : ℚ) (cgs : List Vec3) :
    ((cgs.map (fun v => (m, v))).map Prod.fst).sum = m * cgs.length := by
  induction cgs with
  | nil => simp
  | cons v cgs ih =>
    simp only [List.map_cons, List.sum_cons, ih, List.length_cons]
    push_cast
    ring

theorem mass_foldl (components : List PAV.Component) : ∀ acc : ℚ,
    components.foldl massStep acc
    = acc + ((instances components).map Prod.fst).sum := by
  induction components with
  | nil =>
    intro acc
    simp [instances]
  | cons c cs ih =>
    intro acc
    rw [List.foldl_cons, instances_cons]
    cases hcg : c.cg with
    | single v =>
      rw [massStep_single acc c v hcg, ih]
      simp only [hcg, List.map_append, List.sum_append, List.map_cons,
        List.map_nil, List.sum_cons, List.sum_nil]
      ring
    | multi cgs =>
      rw [massStep_multi acc c cgs hcg, ih]
      simp only [hcg, List.map_append, List.sum_append, sum_map_pair_fst]
      ring

theorem mass_eq_sum (components : List PAV.Component) :
    mass components = ((instances components).map Prod.fst).sum := by
  rw [mass, mass_foldl]
  exact zero_add _

theorem cg_foldl_multi (m : ℚ) (cgs : List Vec3) : ∀ acc : Vec3,
    cgs.foldl (fun acc2 v =>
      ⟨acc2.x + v.x * m, acc2.y + v.y * m, acc2.z + v.z * m⟩) acc
    = ⟨acc.x + (cgs.map (fun v => v.x * m)).sum,
       acc.y + (cgs.map (fun v => v.y * m)).sum,
       acc.z + (cgs.map (fun v => v.z * m)).sum⟩ := by
  induction cgs with
  | nil =>
    intro acc
    simp
  | cons v cgs ih =>
    intro acc
    rw [List.foldl_cons, ih]
    simp only [List.map_cons, List.sum_cons]
    rw [Vec3.mk.injEq]
    refine ⟨?_, ?_, ?_⟩ <;> ring

theorem cg_foldl (components : List PAV.Component) : ∀ acc : Vec3,
    components.foldl cgStep acc
    = ⟨acc.x + ((instances components).map (fun p => p.2.x * p.1)).sum,
       acc.y + ((instances components).map (fun p => p.2.y * p.1)).sum,
       acc.z + ((instances components).map (fun p => p.2.z * p.1)).sum⟩ := by
  induction components with
  | nil =>
    intro acc
    simp [instances]
  | cons c cs ih =>
    intro acc
    rw [List.foldl_cons, instances_cons]
    cases hcg : c.cg with
    | single v =>
      rw [cgStep_single acc c v hcg, ih]
      simp only [hcg, List.map_append, List.sum_append, List.map_cons,
        List.map_nil, List.sum_cons, List.sum_nil]
      rw [Vec3.mk.injEq]
      refine ⟨?_, ?_, ?_⟩ <;> ring
    | multi cgs =>
      rw [cgStep_multi acc c cgs hcg, cg_foldl_multi, ih]
      simp only [hcg, List.map_append, List.sum_append, List.map_map]
      rw [show ((fun p : ℚ × Vec3 => p.2.x * p.1) ∘
          (fun v => (c.mass, v))) = (fun v : Vec3 => v.x * c.mass) from rfl,
        show ((fun p : ℚ × Vec3 => p.2.y * p.1) ∘
          (fun v => (c.mass, v))) = (fun v : Vec3 => v.y * c.mass) from rfl,
        show ((fun p : ℚ × Vec3 => p.2.z * p.1) ∘
          (fun v => (c.mass, v))) = (fun v : Vec3 => v.z * c.mass) from rfl]
      rw [Vec3.mk.injEq]
      refine ⟨?_, ?_, ?_⟩ <;> ring

end PAV

/-- C1: in every outer iteration of the convergence loop, after scanning all
wing positions the driver selects the sample whose combined tail area
(`horizontal_tail_area + vertical_tail_area`) is minimal over the scan
(at the first index attaining the minimum), and the winning sample's
position, resulting mass and resulting c.g. become the iteration's output
state, which feeds the next outer iteration (and is returned unchanged as
the final result when the loop exits, by `convergeLoop_zero` and
`convergeLoop_succ_of_le`). -/
theorem C1_minimum_area_selection (E : Evaluator) (tol : ℚ) (fuel : ℕ)
    (om rp rm : ℚ) (rc : Vec3) (it ca : ℕ) (h : tol < |om - rm|) :
    convergeLoop E tol (fuel + 1) om rp rm rc it ca =
      convergeLoop E tol fuel rm
        (selectSample (innerScan E rm rc)).1
        (selectSample (innerScan E rm rc)).2.1
        (selectSample (innerScan E rm rc)).2.2
        (it + 1) (ca + (innerScan E rm rc).length) ∧
    ∃ i, i < (innerScan E rm rc).length ∧
      (∀ s ∈ innerScan E rm rc,
        ((innerScan E rm rc).getD i defaultSample).horizontal_tail_area +
          ((innerScan E rm rc).getD i defaultSample).vertical_tail_area ≤
        s.horizontal_tail_area + s.vertical_tail_area) ∧
      selectSample (innerScan E rm rc) =
        (scanPositions.getD i 0,
         ((innerScan E rm rc).getD i
            defaultSample).expected_maximum_take_off_weight,
         ((innerScan E rm rc).getD i
            defaultSample).centre_of_gravity_result) := by
  refine ⟨convergeLoop_succ_of_gt E tol fuel om rp rm rc it ca h, ?_⟩
  obtain ⟨i, hilt, hmin, _, hsel⟩ :=
    selectSample_spec (innerScan E rm rc) (innerScan_ne_nil E rm rc)
  refine ⟨i, hilt, ?_, hsel⟩
  intro s hs
  have := hmin s hs
  rwa [sampleArea_eq, sampleArea_eq] at this

theorem C1_minimum_area_selection_witness :
    (0 : ℚ) < |(1 : ℚ) - 0| ∧
    convergeLoop (fun _ _ _ => ⟨0, 0, 0, ⟨0, 0, 0⟩⟩) 0 3 1 0 0 ⟨0, 0, 0⟩ 0 0 =
      convergeLoop (fun _ _ _ => ⟨0, 0, 0, ⟨0, 0, 0⟩⟩) 0 2 0
        (selectSample (innerScan (fun _ _ _ => ⟨0, 0, 0, ⟨0, 0, 0⟩⟩)
          0 ⟨0, 0, 0⟩)).1
        (selectSample (innerScan (fun _ _ _ => ⟨0, 0, 0, ⟨0, 0, 0⟩⟩)
          0 ⟨0, 0, 0⟩)).2.1
        (selectSample (innerScan (fun _ _ _ => ⟨0, 0, 0, ⟨0, 0, 0⟩⟩)
          0 ⟨0, 0, 0⟩)).2.2
        1 (0 + (innerScan (fun _ _ _ => ⟨0, 0, 0, ⟨0, 0, 0⟩⟩)
          0 ⟨0, 0, 0⟩).length) :=
  ⟨by simp,
    (C1_minimum_area_selection (fun _ _ _ => ⟨0, 0, 0, ⟨0, 0, 0⟩⟩)
      0 2 1 0 0 ⟨0, 0, 0⟩ 0 0 (by simp)).1⟩

/-- C2: the outer mass-convergence loop performs at most 3 outer iterations
for every input, and at exit either the mass criterion
`abs(assumed - resulting) <= allowable_mass_difference` holds or the hard
cap of 3 iterations was reached — in particular the cap applies even for an
evaluator whose resulting mass never approaches the assumed mass. -/
theorem C2_outer_loop_hard_cap (initial : InitialAircraft) (E : Evaluator)
    (tol : ℚ) :
    (converge initial E tol).outer_loop ≤ 3 ∧
    (|(converge initial E tol).original_mass -
        (converge initial E tol).resulting_mass| ≤ tol ∨
      (converge initial E tol).outer_loop = 3) := by
  have h := convergeLoop_exit E tol 3 initial.maximum_take_off_weight
    default_wing_position initial.expected_maximum_take_off_weight
    initial.centre_of_gravity_result 0 0
  rw [converge]
  refine ⟨by simpa using h.1, ?_⟩
  rcases h.2 with h1 | h1
  · exact Or.inr (by simpa using h1)
  · exact Or.inl h1

/-- C3: the driver never issues more than
`3 * (floor((position_end - position_start) / position_step) + 1) = 39`
evaluator calls: the initial evaluation plus at most `3 * 12` inner-scan
calls plus the final construction stay below the bound computed from the
nominal grid. -/
theorem C3_evaluator_call_bound (iterate : Bool) (initial : InitialAircraft)
    (E : Evaluator) (tol : ℚ) :
    (totalEvaluatorCalls iterate initial E tol : ℤ) ≤
      3 * (⌊((1 : ℚ) / 2 - 1 / 5) / (1 / 40)⌋ + 1) := by
  have hfloor : ⌊((1 : ℚ) / 2 - 1 / 5) / (1 / 40)⌋ = 12 := by
    have h12 : ((1 : ℚ) / 2 - 1 / 5) / (1 / 40) = ((12 : ℤ) : ℚ) := by
      norm_num
    rw [h12, Int.floor_intCast]
  rw [hfloor]
  have hcalls := convergeLoop_calls E tol 3 initial.maximum_take_off_weight
    default_wing_position initial.expected_maximum_take_off_weight
    initial.centre_of_gravity_result 0 0
  rw [scanPositions_length] at hcalls
  rw [totalEvaluatorCalls, converge]
  cases iterate with
  | false => simp
  | true =>
    simp only [if_pos]
    push_cast
    omega

/-- C5: when `iterate = false` every observable output of the `Iterator`
(`step_part`, `wing_span`, `fuselage_length`, `battery_energy`) is taken
from the initial aircraft (with the Joule-to-kWh conversion on the battery
energy), the result does not depend on the evaluator at all, and exactly one
evaluator call (the initial construction) is issued. -/
theorem C5_bypass (α : Type) (initial_view : AircraftView α)
    (build : ℚ → ℚ → Vec3 → AircraftView α) (initial : InitialAircraft)
    (E E2 : Evaluator) (tol : ℚ) :
    iteratorView false initial_view build initial E tol =
      ⟨initial_view.step_parts, initial_view.wing_span,
        initial_view.fuselage_length,
        initial_view.battery_energy / 3600000⟩ ∧
    iteratorView false initial_view build initial E tol =
      iteratorView false initial_view build initial E2 tol ∧
    totalEvaluatorCalls false initial E tol = 1 := by
  refine ⟨?_, ?_, ?_⟩
  · simp [iteratorView]
  · simp [iteratorView]
  · simp [totalEvaluatorCalls]

/-- C6: when every scanned wing position yields the same combined tail area,
the driver selects the first-scanned (most forward) position: with the
configured scan `0.2, 0.225, ..., 0.475` and any constant-area evaluator,
the returned position is the float `0.2` (`position_start`), provided the
outer loop runs at all. -/
theorem C6_tie_break_first_position (initial : InitialAircraft)
    (E : Evaluator) (tol A : ℚ)
    (hA : ∀ (p m : ℚ) (c : Vec3),
      (E p m c).horizontal_tail_area + (E p m c).vertical_tail_area = A)
    (hgap : tol < |initial.maximum_take_off_weight -
      initial.expected_maximum_take_off_weight|) :
    (converge initial E tol).resulting_position = position_start := by
  have hsel : ∀ (m : ℚ) (c : Vec3),
      (selectSample (innerScan E m c)).1 = position_start := by
    intro m c
    apply selectSample_const_area _ (innerScan_ne_nil E m c) A
    intro s hs
    obtain ⟨p, hp, rfl⟩ := List.mem_map.mp hs
    rw [sampleArea_eq]
    exact hA p m c
  rw [converge]
  rw [convergeLoop_succ_of_gt E tol 2 _ _ _ _ _ _ hgap]
  exact convergeLoop_position_invariant E tol (fun q => q = position_start)
    hsel 2 _ _ _ _ _ _ (hsel _ _)

theorem C6_tie_break_first_position_witness :
    ((0 : ℚ) < |(1 : ℚ) - 0|) ∧
    (converge ⟨1, 0, ⟨0, 0, 0⟩⟩ (fun _ _ _ => ⟨1, 1, 0, ⟨0, 0, 0⟩⟩)
      0).resulting_position = position_start :=
  ⟨by simp,
    C6_tie_break_first_position ⟨1, 0, ⟨0, 0, 0⟩⟩
      (fun _ _ _ => ⟨1, 1, 0, ⟨0, 0, 0⟩⟩) 0 2
      (fun _ _ _ => one_add_one_eq_two) (by simp)⟩

/-- C4 counterexample: contrary to the claim that the scan samples run up to
and including `position_end`, the wing position `position_end = 0.5` is never
sampled: the float accumulation `0.2 + 0.025 + ...` overshoots `0.5` before
reaching it, so the last sampled position is the float near `0.475`. -/
theorem C4_counterexample_end_not_sampled : position_end ∉ scanPositions := by
  decide

/-- C4 (amended): the inner scan samples wing positions by starting at
`position_start` and repeatedly adding `position_step` in binary64 float
arithmetic while the accumulated value is at most `position_end`; the
resulting grid has 12 samples, starts at `position_start`, stays within
`[position_start, position_end]`, but excludes `position_end` itself because
the accumulated float overshoots it; one evaluator call is made per sampled
position with the current assumed mass and assumed c.g. -/
theorem C4_amended_scan_grid :
    scanPositions.length = 12 ∧
    scanPositions.headI = position_start ∧
    (∀ i, i + 1 < scanPositions.length →
      scanPositions.getD (i + 1) 0 =
        fadd (scanPositions.getD i 0) position_step) ∧
    (∀ p ∈ scanPositions, position_start ≤ p ∧ p ≤ position_end) ∧
    position_end < fadd (scanPositions.getLastD 0) position_step ∧
    ∀ (E : Evaluator) (m : ℚ) (c : Vec3),
      innerScan E m c = scanPositions.map (fun p => E p m c) ∧
      (innerScan E m c).length = scanPositions.length := by
  refine ⟨by decide, by decide, ?_, scanPositions_bounds, by decide,
    fun E m c => ⟨rfl, innerScan_length E m c⟩⟩
  intro i hi
  rw [scanPositions_length] at hi
  have hi11 : i < 11 := by omega
  interval_cases i <;> decide

theorem C4_amended_scan_grid_witness :
    (scanPositions.getD 1 0 = fadd (scanPositions.getD 0 0) position_step) ∧
    (position_start ≤ mkRat 1 4 ∧ mkRat 1 4 ≤ position_end) :=
  ⟨C4_amended_scan_grid.2.2.1 0 (by decide),
    C4_amended_scan_grid.2.2.2.1 (mkRat 1 4) (by decide)⟩

/-- C7: the wing-position component of the sizing state stays within the
configured scan range: the final returned position, every sampled position,
every per-iteration winning position, and the initial default wing position
all lie in `[position_start, position_end]`. -/
theorem C7_position_in_range (initial : InitialAircraft) (E : Evaluator)
    (tol : ℚ) :
    (position_start ≤ (converge initial E tol).resulting_position ∧
      (converge initial E tol).resulting_position ≤ position_end) ∧
    (∀ p ∈ scanPositions, position_start ≤ p ∧ p ≤ position_end) ∧
    (∀ (m : ℚ) (c : Vec3),
      position_start ≤ (selectSample (innerScan E m c)).1 ∧
      (selectSample (innerScan E m c)).1 ≤ position_end) ∧
    (position_start ≤ default_wing_position ∧
      default_wing_position ≤ position_end) := by
  have hsel : ∀ (m : ℚ) (c : Vec3),
      position_start ≤ (selectSample (innerScan E m c)).1 ∧
      (selectSample (innerScan E m c)).1 ≤ position_end := by
    intro m c
    exact scanPositions_bounds _ (selectSample_mem_scan _
      (innerScan_ne_nil E m c) (innerScan_length E m c))
  have hdef : position_start ≤ default_wing_position ∧
      default_wing_position ≤ position_end := by decide
  refine ⟨?_, scanPositions_bounds, hsel, hdef⟩
  rw [converge]
  exact convergeLoop_position_invariant E tol
    (fun q => position_start ≤ q ∧ q ≤ position_end) hsel 3 _ _ _ _ _ _ hdef

theorem C7_position_in_range_witness :
    position_start ≤ mkRat 2476979795053773 (2 ^ 53) ∧
    mkRat 2476979795053773 (2 ^ 53) ≤ position_end :=
  (C7_position_in_range ⟨0, 0, ⟨0, 0, 0⟩⟩
    (fun _ _ _ => ⟨0, 0, 0, ⟨0, 0, 0⟩⟩) 0).2.1
    (mkRat 2476979795053773 (2 ^ 53)) (by decide)

/-- C8: the convergence driver is deterministic: for a fixed initial
aircraft, a fixed (functional) evaluator and a fixed tolerance, two runs of
`converge` on the same inputs produce the same result.  In this embedding
`converge` is a pure function, mirroring that the source keeps no state
across runs of the attribute. -/
theorem C8_determinism (initial : InitialAircraft) (E : Evaluator) (tol : ℚ)
    (r1 r2 : ConvergeResult) (h1 : r1 = converge initial E tol)
    (h2 : r2 = converge initial E tol) : r1 = r2 :=
  h1.trans h2.symm

theorem C8_determinism_witness :
    converge ⟨0, 0, ⟨0, 0, 0⟩⟩ (fun _ _ _ => ⟨0, 0, 0, ⟨0, 0, 0⟩⟩) 0 =
      converge ⟨0, 0, ⟨0, 0, 0⟩⟩ (fun _ _ _ => ⟨0, 0, 0, ⟨0, 0, 0⟩⟩) 0 :=
  C8_determinism ⟨0, 0, ⟨0, 0, 0⟩⟩ (fun _ _ _ => ⟨0, 0, 0, ⟨0, 0, 0⟩⟩) 0
    _ _ rfl rfl

/-- C9: the evaluator's reported centre of gravity is the mass-weighted
centroid of all vehicle components: each coordinate of
`centre_of_gravity_result` is the sum, over every instance of every
component (multi-instance components counted once per instance, each at the
per-component mass), of mass times c.g. coordinate, divided by the total
mass `PAV.mass`; and `expected_maximum_take_off_weight` is that total mass
times the gravitational constant `G`. -/
theorem C9_cg_mass_weighted_centroid (components : List PAV.Component) :
    PAV.mass components = ((PAV.instances components).map Prod.fst).sum ∧
    PAV.centre_of_gravity_result components =
      ⟨((PAV.instances components).map (fun p => p.1 * p.2.x)).sum /
          PAV.mass components,
        ((PAV.instances components).map (fun p => p.1 * p.2.y)).sum /
          PAV.mass components,
        ((PAV.instances components).map (fun p => p.1 * p.2.z)).sum /
          PAV.mass components⟩ ∧
    PAV.expected_maximum_take_off_weight components =
      PAV.mass components * PAV.G := by
  refine ⟨PAV.mass_eq_sum components, ?_, rfl⟩
  have hx : (fun p : ℚ × Vec3 => p.1 * p.2.x) = fun p => p.2.x * p.1 :=
    funext fun p => mul_comm _ _
  have hy : (fun p : ℚ × Vec3 => p.1 * p.2.y) = fun p => p.2.y * p.1 :=
    funext fun p => mul_comm _ _
  have hz : (fun p : ℚ × Vec3 => p.1 * p.2.z) = fun p => p.2.z * p.1 :=
    funext fun p => mul_comm _ _
  rw [hx, hy, hz]
  show (let s := components.foldl PAV.cgStep (⟨0, 0, 0⟩ : Vec3)
    (⟨s.x / PAV.mass components, s.y / PAV.mass components,
      s.z / PAV.mass components⟩ : Vec3)) = _
  rw [PAV.cg_foldl]
  rw [Vec3.mk.injEq]
  refine ⟨?_, ?_, ?_⟩ <;> simp

/-- C10: if the initial evaluation already satisfies the mass criterion
`abs(maximum_take_off_weight - expected_maximum_take_off_weight) <=
allowable_mass_difference`, the driver performs zero outer iterations and
zero inner-scan evaluator calls even when `iterate` is true, and returns the
initial aircraft's default wing position `0.4` (which is not one of the
scanned grid points), its computed mass and its computed c.g. -/
theorem C10_zero_iterations_default_position (initial : InitialAircraft)
    (E : Evaluator) (tol : ℚ)
    (h : |initial.maximum_take_off_weight -
      initial.expected_maximum_take_off_weight| ≤ tol) :
    converge initial E tol =
      ⟨default_wing_position, initial.expected_maximum_take_off_weight,
        initial.centre_of_gravity_result, initial.maximum_take_off_weight,
        0, 0⟩ ∧
    totalEvaluatorCalls true initial E tol = 2 ∧
    default_wing_position ∉ scanPositions := by
  have hc : converge initial E tol =
      ⟨default_wing_position, initial.expected_maximum_take_off_weight,
        initial.centre_of_gravity_result, initial.maximum_take_off_weight,
        0, 0⟩ := by
    rw [converge]
    exact convergeLoop_succ_of_le E tol 2 _ _ _ _ _ _ h
  refine ⟨hc, ?_, by decide⟩
  rw [totalEvaluatorCalls, hc]
  simp

theorem C10_zero_iterations_default_position_witness :
    |(5 : ℚ) - 5| ≤ 0 ∧
    converge ⟨5, 5, ⟨1, 2, 3⟩⟩ (fun _ _ _ => ⟨0, 0, 0, ⟨0, 0, 0⟩⟩) 0 =
      ⟨default_wing_position, 5, ⟨1, 2, 3⟩, 5, 0, 0⟩ :=
  ⟨by simp,
    (C10_zero_iterations_default_position ⟨5, 5, ⟨1, 2, 3⟩⟩
      (fun _ _ _ => ⟨0, 0, 0, ⟨0, 0, 0⟩⟩) 0 (by simp)).1⟩
